import Mathlib

/-!
Verification of the URL-canonisation repository against its specification.

The development shallowly embeds the Python scripts of the repository
(`url_cannonise9.py`, `url_cannonise7_comparing_triming_html3.py`,
`url_cannonise3_comparing_trimming.py`, `parse_assemble1.py`) together with
the parts of the CPython 3.11 `urllib.parse` standard library that they call
(`urlparse`, `urlunparse`, `parse_qs`, `parse_qsl`, `urlencode`, `quote_plus`
and the `+`/percent decoding done inside `parse_qsl`).

Strings are modelled as `List Char`; the network fetch performed by
`requests.get` is modelled as an injected function `String → Option String`
(`none` is a `requests.RequestException`); percent decoding is modelled
byte-wise for single-byte (ASCII) escapes, which is exactly the CPython
behaviour on ASCII data (CPython additionally reassembles multi-byte UTF-8
escape sequences; theorems that depend on decoding therefore carry an ASCII
hypothesis).  The `ValueError` branches of `urlsplit` (unbalanced brackets in
the netloc and the NFKC check on non-ASCII netlocs) are not modelled; the
theorems quantifying over arbitrary inputs carry hypotheses that keep the
input out of those branches.
-/

set_option autoImplicit false

/-- Split a list at the first occurrence of `c`: `some (before, after)` with
`l = before ++ c :: after` and `c ∉ before`, or `none` when `c` does not
occur.  This models `str.find` plus slicing and `str.split(c, 1)`. -/
def splitFirst (c : Char) : List Char → Option (List Char × List Char)
  | [] => none
  | x :: xs =>
    if x = c then some ([], xs)
    else
      match splitFirst c xs with
      | some (a, b) => some (x :: a, b)
      | none => none

/-- Model of the Python `str.split(sep)` for a one-character separator:
always returns at least one piece, empty pieces preserved. -/
def pySplit (sep : Char) : List Char → List (List Char)
  | [] => [[]]
  | c :: rest =>
    if c = sep then [] :: pySplit sep rest
    else
      match pySplit sep rest with
      | h :: t => (c :: h) :: t
      | [] => [[c]]

/-- Model of the Python `sep.join(pieces)` for a one-character separator. -/
def pyJoin (sep : Char) : List (List Char) → List Char
  | [] => []
  | [x] => x
  | x :: xs => x ++ sep :: pyJoin sep xs

/-- Model of the Python `str.rstrip(c)` for a single character: drop every
trailing occurrence of `c`. -/
def pyRstrip (c : Char) (l : List Char) : List Char :=
  (l.reverse.dropWhile (· = c)).reverse

/-- Model of the Python `str.endswith(c)` for a single character. -/
def pyEndsWith (c : Char) (l : List Char) : Bool :=
  l.getLast? = some c

/-- The ASCII letters, digits and `+`, `-`, `.`: the characters CPython
`urllib.parse.scheme_chars` allows inside a URL scheme. -/
def scheme_chars : List Char :=
  "abcdefghijklmnopqrstuvwxyzABCDEFGHIJKLMNOPQRSTUVWXYZ0123456789+-.".data

/-- ASCII alphabetic test, the conjunction `c.isascii() and c.isalpha()`
CPython applies to the first character of a candidate scheme. -/
def isAsciiAlpha (c : Char) : Bool :=
  ('a' ≤ c && c ≤ 'z') || ('A' ≤ c && c ≤ 'Z')

/-- A C0 control character or space: the class CPython lstrips from the URL
at the start of `urlsplit` (`_WHATWG_C0_CONTROL_OR_SPACE`). -/
def isC0OrSpace (c : Char) : Bool :=
  c.toNat ≤ 0x20

/-- Tab, carriage return or line feed: the characters CPython removes from
the whole URL in `urlsplit` (`_UNSAFE_URL_BYTES_TO_REMOVE`). -/
def isUnsafeUrlByte (c : Char) : Bool :=
  c = '\t' || c = '\r' || c = '\n'

/-- The five string components CPython `urlsplit` produces.  The `params`
component of the 6-tuple returned by `urlparse` is not modelled: none of the
repository scripts touches it and `urlunparse` reattaches it verbatim, so it
rides along inside `path` unchanged. -/
structure PyUrl where
  scheme : List Char
  netloc : List Char
  path : List Char
  query : List Char
  fragment : List Char
deriving DecidableEq, Repr

/-- Scheme detection of CPython `urlsplit`: take the text before the first
`:`; when it is nonempty, starts with an ASCII letter and consists of
scheme characters, it is the scheme (lowercased) and the remainder follows
the colon, otherwise there is no scheme. -/
def splitScheme (url : List Char) : List Char × List Char :=
  match splitFirst ':' url with
  | some (pre, post) =>
    if pre ≠ [] && isAsciiAlpha (pre.headD ' ') && pre.all (fun c => scheme_chars.contains c) then
      (pre.map Char.toLower, post)
    else ([], url)
  | none => ([], url)

/-- Netloc delimiter test of CPython `_splitnetloc`: the netloc extends to
the first `/`, `?` or `#`. -/
def isNetlocStop (c : Char) : Bool :=
  c = '/' || c = '?' || c = '#'

/-- CPython `_splitnetloc(url, 2)` after the leading `//` has been dropped:
everything up to the first `/`, `?` or `#` is the netloc. -/
def splitnetloc (l : List Char) : List Char × List Char :=
  (l.takeWhile (fun c => !isNetlocStop c), l.dropWhile (fun c => !isNetlocStop c))

/-- The last two steps of CPython `urlsplit`: split off the fragment at the
first `#`, then the query at the first `?`, of what remains after scheme
and netloc extraction. -/
def parseTail (scheme netloc rest1 : List Char) : PyUrl :=
  let fp :=
    match splitFirst '#' rest1 with
    | some ab => ab
    | none => (rest1, [])
  let qp :=
    match splitFirst '?' fp.1 with
    | some ab => ab
    | none => (fp.1, [])
  ⟨scheme, netloc, qp.1, qp.2, fp.2⟩

/-- The netloc step of CPython `urlsplit`: after the scheme has been
removed, a leading `//` introduces the netloc, which runs to the first `/`,
`?` or `#`. -/
def parseRest (scheme rest0 : List Char) : PyUrl :=
  if rest0.take 2 = ['/', '/'] then
    parseTail scheme (splitnetloc (rest0.drop 2)).1 (splitnetloc (rest0.drop 2)).2
  else parseTail scheme [] rest0

/-- CPython `urlsplit` after the initial character cleaning: scheme
detection, then netloc, fragment and query extraction. -/
def urlparseCore (url1 : List Char) : PyUrl :=
  parseRest (splitScheme url1).1 (splitScheme url1).2

/-- CPython 3.11 `urlsplit` on the five modelled components: lstrip C0
controls and spaces, delete tab, CR and LF, detect the scheme, take the
netloc after a leading `//`, split off the fragment at the first `#`, then
the query at the first `?`.  The `ValueError` branches for bracketed or
non-NFKC netlocs are not modelled (see the module comment). -/
def urlparseL (url0 : List Char) : PyUrl :=
  urlparseCore ((url0.dropWhile isC0OrSpace).filter (fun c => !isUnsafeUrlByte c))

/-- The schemes of CPython 3.11 `uses_netloc` (the nonempty ones; the empty
string in the Python list is irrelevant because `urlunsplit` tests it only
under `scheme` being truthy). -/
def uses_netloc : List (List Char) :=
  ["ftp".data, "http".data, "gopher".data, "nntp".data, "telnet".data,
   "imap".data, "wais".data, "file".data, "mms".data, "https".data,
   "shttp".data, "snews".data, "prospero".data, "rtsp".data, "rtsps".data,
   "rtspu".data, "rsync".data, "svn".data, "svn+ssh".data, "sftp".data,
   "nfs".data, "git".data, "git+ssh".data, "ws".data, "wss".data]

/-- CPython 3.11 `urlunsplit` (equally `urlunparse` with empty params): a
`//` marker is emitted when the netloc is nonempty, or when the scheme is a
known netloc-using scheme and the path does not already begin with `//`; a
nonempty path not starting with `/` gets one prepended under that marker. -/
def addSlashIfNeeded (l : List Char) : List Char :=
  if l ≠ [] ∧ l.headD ' ' ≠ '/' then '/' :: l else l

def urlunparseBase (p : PyUrl) : List Char :=
  if p.netloc ≠ [] ∨ (p.scheme ≠ [] ∧ uses_netloc.contains p.scheme ∧ p.path.take 2 ≠ ['/', '/']) then
    '/' :: '/' :: (p.netloc ++ addSlashIfNeeded p.path)
  else p.path

def urlunparseL (p : PyUrl) : List Char :=
  let withScheme := if p.scheme ≠ [] then p.scheme ++ ':' :: urlunparseBase p else urlunparseBase p
  let withQuery := if p.query ≠ [] then withScheme ++ '?' :: p.query else withScheme
  if p.fragment ≠ [] then withQuery ++ '#' :: p.fragment else withQuery

/-- String-level `urlparse`, as the scripts call it. -/
def urlparse (s : String) : PyUrl :=
  urlparseL s.data

/-- String-level `urlunparse`, as the scripts call it. -/
def urlunparse (p : PyUrl) : String :=
  ⟨urlunparseL p⟩

example : urlparse "https://example.com/%00bad" =
    ⟨"https".data, "example.com".data, "/%00bad".data, [], []⟩ := by decide

example : urlparse "https://example.com/a/?utm_source=x#frag" =
    ⟨"https".data, "example.com".data, "/a/".data, "utm_source=x".data, "frag".data⟩ := by
  decide

example : urlunparse ⟨"https".data, "example.com".data, "/a".data, [], []⟩ =
    "https://example.com/a" := by decide

example : urlparse "/////y" = ⟨[], [], "///y".data, [], []⟩ := by decide

example : urlunparse ⟨[], [], "///y".data, [], []⟩ = "///y" := by decide

example : urlparse "a:b" = ⟨"a".data, [], "b".data, [], []⟩ := by decide

example : urlunparse ⟨"https".data, [], "a".data, [], []⟩ = "https:///a" := by decide

/-- The characters CPython `quote` never escapes with its default
`safe=''` as used by `urlencode` via `quote_plus`: ASCII letters, digits
and `_`, `.`, `-`, `~` (`_ALWAYS_SAFE`). -/
def isAlwaysSafe (c : Char) : Bool :=
  ('a' ≤ c && c ≤ 'z') || ('A' ≤ c && c ≤ 'Z') || ('0' ≤ c && c ≤ '9') ||
    c = '_' || c = '.' || c = '-' || c = '~'

/-- Upper-case hexadecimal digit of `n < 16`, as CPython `quote` emits. -/
def hexDigitU (n : Nat) : Char :=
  "0123456789ABCDEF".data.getD n '0'

/-- Numeric value of a hexadecimal digit character. -/
def hexVal (c : Char) : Nat :=
  if '0' ≤ c && c ≤ '9' then c.toNat - '0'.toNat
  else if 'a' ≤ c && c ≤ 'f' then c.toNat - 'a'.toNat + 10
  else c.toNat - 'A'.toNat + 10

/-- Hexadecimal digit test, both cases, as CPython `unquote` accepts. -/
def isHexDigit (c : Char) : Bool :=
  ('0' ≤ c && c ≤ '9') || ('a' ≤ c && c ≤ 'f') || ('A' ≤ c && c ≤ 'F')

/-- The UTF-8 bytes of one character, the encoding CPython `quote` applies
before percent-escaping. -/
def utf8Bytes (c : Char) : List Nat :=
  let n := c.toNat
  if n < 0x80 then [n]
  else if n < 0x800 then [0xC0 + n / 64, 0x80 + n % 64]
  else if n < 0x10000 then [0xE0 + n / 4096, 0x80 + n / 64 % 64, 0x80 + n % 64]
  else [0xF0 + n / 262144, 0x80 + n / 4096 % 64, 0x80 + n / 64 % 64, 0x80 + n % 64]

/-- Percent-escape one byte, upper-case, as CPython `quote` does. -/
def pctEncode (b : Nat) : List Char :=
  ['%', hexDigitU (b / 16), hexDigitU (b % 16)]

/-- CPython `quote_plus(s, safe='')` on one character: always-safe
characters stay, a space becomes `+`, everything else is the
percent-escaped UTF-8 bytes. -/
def quoteChar (c : Char) : List Char :=
  if isAlwaysSafe c then [c]
  else if c = ' ' then ['+']
  else (utf8Bytes c).flatMap pctEncode

/-- CPython `quote_plus(s, safe='')`, as `urlencode` applies it to every
key and value. -/
def quote_plus (l : List Char) : List Char :=
  l.flatMap quoteChar

/-- The `+`-to-space replacement followed by `unquote` that `parse_qsl`
applies to each raw name and value.  A valid `%XX` escape becomes the
character of byte `XX`; an invalid escape is kept literally.  This is
exactly CPython on single-byte (ASCII) escapes; CPython additionally
decodes multi-byte UTF-8 escape sequences, which this model does not, so
every theorem that relies on decoding carries an ASCII hypothesis. -/
def unquote_plus : List Char → List Char
  | '+' :: rest => ' ' :: unquote_plus rest
  | '%' :: h1 :: h2 :: rest =>
    if isHexDigit h1 && isHexDigit h2 then
      Char.ofNat (hexVal h1 * 16 + hexVal h2) :: unquote_plus rest
    else '%' :: unquote_plus (h1 :: h2 :: rest)
  | c :: rest => c :: unquote_plus rest
  | [] => []

/-- The insertion-ordered dictionary `parse_qs` builds: keys in first
occurrence order, each with its list of values in occurrence order. -/
abbrev QDict : Type := List (List Char × List (List Char))

/-- Membership test `key in dict` for the insertion-ordered dictionary. -/
def qContains (d : QDict) (k : List Char) : Bool :=
  d.any (fun kv => kv.1 = k)

/-- Python `del dict[key]` / `dict.pop(key)` removal of the (unique) entry
with the given key; insertion order of the others is preserved. -/
def qErase (d : QDict) (k : List Char) : QDict :=
  d.filter (fun kv => kv.1 ≠ k)

/-- Values of a key, `dict[key]` (defaulting to `[]`, never hit by the
scripts, which look the key up only after an `in` test). -/
def qGet (d : QDict) (k : List Char) : List (List Char) :=
  match d.find? (fun kv => kv.1 = k) with
  | some kv => kv.2
  | none => []

/-- Python `dict[key] = value` on an absent key: the entry is appended at
the end of the insertion order (this is how `url_cannonise3` restores a
rejected parameter). -/
def qAppend (d : QDict) (k : List Char) (v : List (List Char)) : QDict :=
  d ++ [(k, v)]

/-- One step of the grouping loop of CPython `parse_qs`: append the value
to an existing key or add a new key at the end. -/
def qAdd (d : QDict) (k : List Char) (v : List Char) : QDict :=
  if qContains d k then
    d.map (fun kv => if kv.1 = k then (kv.1, kv.2 ++ [v]) else kv)
  else d ++ [(k, [v])]

/-- CPython `parse_qsl(qs, keep_blank_values=True)`: split on `&`, skip
empty fields, split each field at the first `=` (a field without `=` gets
an empty value because blank values are kept), then `+`/percent-decode
names and values.  CPython returns `[]` for the empty string via a
pre-test; here the single empty field is skipped, giving the same list. -/
def parse_qsl (qs : List Char) : List (List Char × List Char) :=
  (pySplit '&' qs).flatMap (fun field =>
    if field = [] then []
    else
      match splitFirst '=' field with
      | some (n, v) => [(unquote_plus n, unquote_plus v)]
      | none => [(unquote_plus field, [])])

/-- CPython `parse_qs(qs, keep_blank_values=True)`: group the `parse_qsl`
pairs into an insertion-ordered dictionary of value lists. -/
def parse_qs (qs : List Char) : QDict :=
  (parse_qsl qs).foldl (fun d kv => qAdd d kv.1 kv.2) []

/-- CPython `urlencode(d, doseq=True)` on a dictionary of string lists:
each value of each key becomes `quote_plus(key)=quote_plus(value)`, joined
with `&`, keys in dictionary (insertion) order. -/
def urlencode (d : QDict) : List Char :=
  pyJoin '&'
    (d.flatMap (fun kv => kv.2.map (fun v => quote_plus kv.1 ++ '=' :: quote_plus v)))

example : parse_qs "a=1&b=2&a=3".data =
    [("a".data, ["1".data, "3".data]), ("b".data, ["2".data])] := by decide

example : urlencode [("a".data, ["1".data, "3".data]), ("b".data, ["2".data])] =
    "a=1&a=3&b=2".data := by decide

example : parse_qs "a&b=&c=+%41".data =
    [("a".data, [[]]), ("b".data, [[]]), ("c".data, [" A".data])] := by decide

example : urlencode [("k".data, ["a:b".data, "x y".data])] = "k=a%3Ab&k=x+y".data := by
  decide

example : parse_qs [] = [] := by decide

example : urlencode [] = [] := by decide

/-- Model of `fetch_stripped_html` of `url_cannonise9.py` (lines 62-80): the
network fetch plus BeautifulSoup cleaning is abstracted into the injected
`fetch`, where `fetch url = some s` means the GET succeeded and `s` is the
cleaned HTML `str(soup)`, and `fetch url = none` means
`requests.RequestException` was raised; on the exception path the function
returns the empty string. -/
def fetch_stripped_html (fetch : String → Option String) (url : String) : String :=
  match fetch url with
  | some cleaned => cleaned
  | none => ""

/-- Model of `pages_equivalent` of `url_cannonise9.py` (lines 82-89):
fetch both URLs and compare the cleaned HTML strings. -/
def pages_equivalent (fetch : String → Option String) (url_a url_b : String) : Bool :=
  fetch_stripped_html fetch url_a == fetch_stripped_html fetch url_b

/-- The hard-coded `tracking_params` list of `url_cannonise9.py`
(lines 114-119). -/
def tracking_params : List (List Char) :=
  ["utm_source".data, "utm_medium".data, "utm_campaign".data, "utm_term".data,
   "utm_content".data, "itm_source".data, "si".data, "trackingId".data,
   "refId".data, "midToken".data, "midSig".data, "trkEmail".data,
   "otpToken".data, "eid".data, "mc_eid".data, "mc_cid".data, "mc_lid".data,
   "mc_mid".data, "mc_rid".data, "mc_t".data, "mc_uid".data, "trk".data]

/-- Stage 1 of `canonicalize_url` of `url_cannonise9.py` (lines 99-104):
if there is a fragment, clear it in a candidate and keep the candidate when
`pages_equivalent(url, test_url)` holds; `url` is the frozen input
string. -/
def fragStage (fetch : String → Option String) (url : String) (p : PyUrl) : PyUrl :=
  if p.fragment ≠ [] then
    let test_parsed : PyUrl := { p with fragment := [] }
    if pages_equivalent fetch url (urlunparse test_parsed) then test_parsed else p
  else p

/-- Stage 2 of `canonicalize_url` of `url_cannonise9.py` (lines 106-111):
when the path ends with `/` and is not exactly `/`, propose the path with
`.rstrip("/")` applied (all trailing slashes removed) and keep it when the
oracle accepts. -/
def slashStage (fetch : String → Option String) (url : String) (p : PyUrl) : PyUrl :=
  if pyEndsWith '/' p.path ∧ p.path ≠ ['/'] then
    let test_parsed : PyUrl := { p with path := pyRstrip '/' p.path }
    if pages_equivalent fetch url (urlunparse test_parsed) then test_parsed else p
  else p

/-- Stage 3 of `canonicalize_url` of `url_cannonise9.py` (lines 113-139):
delete every present tracking parameter from the `parse_qs` dictionary at
once; if any was deleted, re-encode the query and keep it when the oracle
accepts, otherwise leave the query untouched. -/
def queryStage (fetch : String → Option String) (url : String) (p : PyUrl) : PyUrl :=
  let q := parse_qs p.query
  let qr := tracking_params.foldl
    (fun st param => if qContains st.1 param then (qErase st.1 param, true) else st)
    (q, false)
  if qr.2 then
    let test_parsed : PyUrl := { p with query := urlencode qr.1 }
    if pages_equivalent fetch url (urlunparse test_parsed) then test_parsed else p
  else p

/-- Model of `canonicalize_url` of `url_cannonise9.py` (lines 91-141): parse
the input, run the fragment, trailing-slash and tracking-parameter stages,
each tested against the frozen input string `url`, and render the result. -/
def canonicalize_url (fetch : String → Option String) (url : String) : String :=
  let parsed := urlparse url
  let parsed := fragStage fetch url parsed
  let parsed := slashStage fetch url parsed
  let parsed := queryStage fetch url parsed
  urlunparse parsed

example : canonicalize_url (fun _ => none) "https://example.com/a/?utm_source=x#frag" =
    "https://example.com/a" := by decide

example : canonicalize_url (fun _ => none) "https://example.com//" =
    "https://example.com" := by decide

example : canonicalize_url (fun _ => some "A") "/////y" = "///y" := by decide

example : canonicalize_url (fun _ => some "A") "///y" = "/y" := by decide

/-- Model of `fetch_content_signature` of
`url_cannonise7_comparing_triming_html3.py` (lines 5-20): a successful GET
yields `(status_code, title, body_text)`, abstracted into the injected
`fetch7`; a `requests.RequestException` yields the sentinel
`(None, "", "")`, modelled as `(none, "", "")`. -/
def fetch_content_signature (fetch7 : String → Option (Nat × String × String))
    (url : String) : Option Nat × String × String :=
  match fetch7 url with
  | some (status, title, body) => (some status, title, body)
  | none => (none, "", "")

/-- Model of `pages_equivalent` of
`url_cannonise7_comparing_triming_html3.py` (lines 17-20): compare the two
content signatures. -/
def pages_equivalent7 (fetch7 : String → Option (Nat × String × String))
    (url_a url_b : String) : Bool :=
  fetch_content_signature fetch7 url_a == fetch_content_signature fetch7 url_b

/-- The loop body of stage 3 of `canonicalize_url` of
`url_cannonise7_comparing_triming_html3.py` (lines 39-48), identical in
`url_cannonise8_comparing_tags_html.py` (lines 61-70).  Counting down,
argument `i+1` builds the candidate path `'/'.join(path_parts[:i+1])`,
replaces the path of the current parsed URL, keeps the candidate and
continues when `pages_equivalent(url, test_url)` holds, and breaks out,
returning the current parsed URL, on the first rejection; `i = 0` is the
end of `range(len(path_parts) - 1, 0, -1)`. -/
def pathTailGo (fetch7 : String → Option (Nat × String × String)) (url : String)
    (parts : List (List Char)) (p : PyUrl) : Nat → PyUrl
  | 0 => p
  | i + 1 =>
    let test_path := pyJoin '/' (parts.take (i + 1))
    let test_parsed : PyUrl := { p with path := test_path }
    if pages_equivalent7 fetch7 url (urlunparse test_parsed) then
      pathTailGo fetch7 url parts test_parsed i
    else p

/-- Stage 3 of `canonicalize_url` of
`url_cannonise7_comparing_triming_html3.py` (lines 39-48): split the path
on `/` and strip segments from the right, one at a time, each candidate
tested against the frozen input `url`, stopping at the first rejection. -/
def pathTailStage (fetch7 : String → Option (Nat × String × String)) (url : String)
    (p : PyUrl) : PyUrl :=
  let path_parts := pySplit '/' p.path
  pathTailGo fetch7 url path_parts p (path_parts.length - 1)

example :
    (pathTailStage
      (fun s => if s = "https://e.com/a/b" ∨ s = "https://e.com/a/b/c" then some (200, "T", "B")
        else some (404, "", ""))
      "https://e.com/a/b/c" (urlparse "https://e.com/a/b/c")).path = "/a/b".data := by
  decide

/-- The query-parameter loop of `make_url_canonical` of
`url_cannonise3_comparing_trimming.py` (lines 63-74), with the evaluation
order of the keys made an explicit argument (the script iterates over
`list(cleaned_params.keys())`).  For each key in turn: pop it, rebuild the
test URL from the remaining dictionary (so previously accepted removals
stay removed in the candidate), compare with the frozen original `url` via
`confirm_same_destination`, and on rejection restore the key, which Python
reinserts at the end of the dictionary order.  `same` is the predicate
`confirm_same_destination(url, ·)` with `url` frozen; a key absent from the
dictionary is skipped (the script never hits that case because the order
list is exactly the key list). -/
def queryLoop3 (same : String → Bool) (p : PyUrl) :
    List (List Char) → QDict → QDict
  | [], q => q
  | key :: keys, q =>
    if qContains q key then
      let removed_value := qGet q key
      let cleaned := qErase q key
      let test_parsed : PyUrl := { p with query := urlencode cleaned }
      if same (urlunparse test_parsed) then queryLoop3 same p keys cleaned
      else queryLoop3 same p keys (qAppend cleaned key removed_value)
    else queryLoop3 same p keys q

/-- The same loop with the candidate test abstracted to act on the
dictionary itself: `ok q` stands for
`same (urlunparse { p with query := urlencode q })`.  `queryLoop3_abs_spec`
below proves it coincides with `queryLoop3`. -/
def queryLoop3Abs (ok : QDict → Bool) : List (List Char) → QDict → QDict
  | [], q => q
  | key :: keys, q =>
    if qContains q key then
      let removed_value := qGet q key
      let cleaned := qErase q key
      if ok cleaned then queryLoop3Abs ok keys cleaned
      else queryLoop3Abs ok keys (qAppend cleaned key removed_value)
    else queryLoop3Abs ok keys q

/-- Model of `get_video_id_custom` of `parse_assemble1.py` (lines 4-19): the
leftmost match of the regular expression `v=([^&#/?]+)` in the query
component of the parsed URL, with the greedy capture group returned, or the
empty string when there is no match. -/
def vSearch : List Char → Option (List Char)
  | [] => none
  | 'v' :: '=' :: rest2 =>
    let cap := rest2.takeWhile (fun x => !(x = '&' || x = '#' || x = '/' || x = '?'))
    if cap = [] then vSearch ('=' :: rest2) else some cap
  | _ :: rest => vSearch rest

/-- Model of `get_video_id_custom` of `parse_assemble1.py` (lines 4-19). -/
def get_video_id_custom (url : String) : String :=
  match vSearch (urlparse url).query with
  | some cap => ⟨cap⟩
  | none => ""

example : get_video_id_custom "https://www.youtube.com/watch?v=abc123#some_fragment" =
    "abc123" := by decide

example : get_video_id_custom "https://www.youtube.com/watch?v=abc123&feature=share" =
    "abc123" := by decide

example : get_video_id_custom "https://www.youtube.com/watch?v=abc123?0t57y/" =
    "abc123" := by decide

example : get_video_id_custom "https://youtu.be/watch" = "" := by decide

/-- A path stripped with `rstrip("/")` never still ends in a slash. -/
theorem pyEndsWith_pyRstrip (l : List Char) : pyEndsWith '/' (pyRstrip '/' l) = false := by
  unfold pyEndsWith pyRstrip
  rw [List.getLast?_reverse]
  have hx := List.head?_dropWhile_not (fun c => decide (c = '/')) l.reverse
  cases h : (l.reverse.dropWhile (fun c => decide (c = '/'))).head? with
  | none => simp
  | some x =>
    rw [h] at hx
    simp only [decide_eq_false_iff_not] at hx
    simp [hx]

/-- The fragment stage is a no-op when there is no fragment. -/
theorem fragStage_no_fragment (fetch : String → Option String) (url : String) (p : PyUrl)
    (h : p.fragment = []) : fragStage fetch url p = p := by
  unfold fragStage
  simp [h]

/-- The trailing-slash stage is a no-op when the path does not end in a
slash. -/
theorem slashStage_no_slash (fetch : String → Option String) (url : String) (p : PyUrl)
    (h : pyEndsWith '/' p.path = false) : slashStage fetch url p = p := by
  unfold slashStage
  simp [h]

/-- The tracking-parameter stage is a no-op when no tracking parameter is
present in the parsed query (the `removed_any` flag stays `False`). -/
theorem queryStage_no_tracking (fetch : String → Option String) (url : String) (p : PyUrl)
    (h : (tracking_params.foldl
      (fun st param => if qContains st.1 param then (qErase st.1 param, true) else st)
      (parse_qs p.query, false)).2 = false) : queryStage fetch url p = p := by
  unfold queryStage
  simp [h]

/-- C1, counterexample: with both fetches failing, `pages_equivalent` of
`url_cannonise9.py` reports the two distinct URLs as equivalent (both sides
clean to the empty string), contradicting the claim that two failed fetches
never compare equal. -/
theorem C1_counterexample :
    pages_equivalent (fun _ => none) "https://a.example/x" "https://b.example/y" = true := rfl

/-- C1, amended: a failed fetch yields the empty-string sentinel, which is
equal to the sentinel of any other failed fetch; hence whenever both
fetches fail, `pages_equivalent` reports the pages as equivalent, so a
reduction candidate whose fetch fails is accepted whenever the fetch of the
original fails too. -/
theorem C1_failed_fetches_compare_equal (fetch : String → Option String) (a b : String)
    (ha : fetch a = none) (hb : fetch b = none) :
    pages_equivalent fetch a b = true := by
  simp [pages_equivalent, fetch_stripped_html, ha, hb]

/-- Witness for C1: the amended theorem applied at a concrete fetcher and
concrete URLs. -/
theorem C1_witness :
    pages_equivalent (fun _ => none) "https://a.example" "https://b.example" = true :=
  C1_failed_fetches_compare_equal (fun _ => none) "https://a.example" "https://b.example" rfl rfl

/-- C6, counterexample: the trailing-slash stage of `url_cannonise9.py`
strips more than one trailing empty segment (first conjunct: two slashes
removed at once, where removing exactly one would give
`https://example.com/a/`), and it can strip the path below the root: on
`https://example.com//` the resulting path is the empty string (second and
third conjuncts). -/
theorem C6_counterexample :
    canonicalize_url (fun _ => none) "https://example.com/a//" = "https://example.com/a" ∧
    canonicalize_url (fun _ => none) "https://example.com//" = "https://example.com" ∧
    (urlparse (canonicalize_url (fun _ => none) "https://example.com//")).path = [] := by
  decide

/-- C6, amended: the trailing-slash stage runs only when the working path
ends with `/` and is not exactly `/` (otherwise the URL passes through
unchanged, first disjunct); when it runs and the oracle accepts, the
candidate path is `rstrip("/")` of the working path, i.e. all trailing
slashes are removed at once, and such a stripped path never ends in `/`
again, so an all-slash path collapses to the empty string rather than
stopping at the root. -/
theorem C6_slashStage_spec (fetch : String → Option String) (url : String) (p : PyUrl) :
    (slashStage fetch url p = p ∨
      ((slashStage fetch url p).path = pyRstrip '/' p.path ∧
        pyEndsWith '/' p.path = true ∧ p.path ≠ ['/'])) ∧
    pyEndsWith '/' (pyRstrip '/' p.path) = false := by
  refine ⟨?_, pyEndsWith_pyRstrip p.path⟩
  unfold slashStage
  by_cases hc : pyEndsWith '/' p.path = true ∧ p.path ≠ ['/']
  · rw [if_pos hc]
    by_cases ho : pages_equivalent fetch url
        (urlunparse { p with path := pyRstrip '/' p.path }) = true
    · exact Or.inr ⟨by rw [if_pos ho], hc.1, hc.2⟩
    · rw [if_neg (by simpa using ho)]
      exact Or.inl rfl
  · rw [if_neg hc]
    exact Or.inl rfl

/-- C7, counterexample: `urlparse` accepts `https://example.com/%00bad`
(CPython does not validate percent escapes), `canonicalize_url` raises no
`ParseError` and simply returns the URL unchanged. -/
theorem C7_counterexample :
    canonicalize_url (fun _ => none) "https://example.com/%00bad" =
      "https://example.com/%00bad" := by decide

/-- C7, amended: on the input `https://example.com/%00bad` the code parses
successfully (there is no `ParseError` anywhere in the scripts), makes zero
fetch invocations — the result is the same for every injected fetcher
because no stage condition fires: no fragment, no trailing slash, no
query — and returns the input unchanged. -/
theorem C7_percent_escape_parses_fine (fetch : String → Option String) :
    canonicalize_url fetch "https://example.com/%00bad" = "https://example.com/%00bad" := by
  simp only [canonicalize_url]
  rw [show urlparse "https://example.com/%00bad" =
      ⟨"https".data, "example.com".data, "/%00bad".data, [], []⟩ from by decide]
  rw [fragStage_no_fragment _ _ _ (by decide)]
  rw [slashStage_no_slash _ _ _ (by decide)]
  rw [queryStage_no_tracking _ _ _ (by decide)]
  decide

/-- Shape of a successful search for `v=([^&#/?]+)`: the captured group is
nonempty and contains none of the four excluded characters. -/
theorem vSearch_spec (l : List Char) :
    ∀ cap, vSearch l = some cap →
      cap ≠ [] ∧ ∀ c ∈ cap, c ≠ '&' ∧ c ≠ '#' ∧ c ≠ '/' ∧ c ≠ '?' := by
  induction l using vSearch.induct with
  | case1 =>
    intro cap h
    simp [vSearch.eq_1] at h
  | case2 rest2 capv hcap ih =>
    intro cap h
    have hcap2 : List.takeWhile
        (fun x => !(decide (x = '&') || decide (x = '#') || decide (x = '/') || decide (x = '?')))
        rest2 = [] := hcap
    rw [vSearch.eq_2, if_pos hcap2] at h
    exact ih cap h
  | case3 rest2 capv hcap =>
    intro cap h
    have hcap2 : ¬ List.takeWhile
        (fun x => !(decide (x = '&') || decide (x = '#') || decide (x = '/') || decide (x = '?')))
        rest2 = [] := hcap
    rw [vSearch.eq_2, if_neg hcap2] at h
    cases h
    refine ⟨hcap2, ?_⟩
    intro x hx
    have hp := List.mem_takeWhile_imp hx
    simp only [Bool.not_eq_true', Bool.or_eq_false_iff, decide_eq_false_iff_not] at hp
    exact ⟨hp.1.1.1, hp.1.1.2, hp.1.2, hp.2⟩
  | case4 c rest hne ih =>
    intro cap h
    rw [vSearch.eq_3 c rest hne] at h
    exact ih cap h

/-- C10: for every input string, `get_video_id_custom` returns either the
empty string (no match of `v=([^&#/?]+)` in the query component) or a
nonempty string containing none of `&`, `#`, `/`, `?`.  (The `ValueError`
branches of CPython `urlsplit` on bracketed netlocs are outside the model;
on such inputs the Python function raises instead of returning.) -/
theorem C10_video_id_shape (url : String) :
    get_video_id_custom url = "" ∨
      (get_video_id_custom url ≠ "" ∧
        ∀ c ∈ (get_video_id_custom url).data, c ≠ '&' ∧ c ≠ '#' ∧ c ≠ '/' ∧ c ≠ '?') := by
  unfold get_video_id_custom
  cases h : vSearch (urlparse url).query with
  | none => exact Or.inl rfl
  | some cap =>
    have hs := vSearch_spec _ cap h
    refine Or.inr ⟨?_, ?_⟩
    · intro he
      exact hs.1 (congrArg String.data he)
    · intro c hc
      exact hs.2 c hc

/-- Python `split` never returns an empty list of pieces. -/
theorem pySplit_ne_nil (sep : Char) (l : List Char) : pySplit sep l ≠ [] := by
  cases l with
  | nil => simp [pySplit]
  | cons c rest =>
    unfold pySplit
    by_cases h : c = sep
    · simp [h]
    · rw [if_neg h]
      cases pySplit sep rest <;> simp

/-- Splitting on a separator and joining back is the identity. -/
theorem pyJoin_pySplit (sep : Char) (l : List Char) : pyJoin sep (pySplit sep l) = l := by
  induction l with
  | nil => rfl
  | cons c rest ih =>
    unfold pySplit
    by_cases h : c = sep
    · rw [if_pos h]
      cases hs : pySplit sep rest with
      | nil => exact absurd hs (pySplit_ne_nil sep rest)
      | cons h2 t2 =>
        rw [hs] at ih
        cases t2 with
        | nil =>
          simp only [pyJoin] at ih ⊢
          simp [h, ih]
        | cons h3 t3 =>
          simp only [pyJoin] at ih ⊢
          simp [h, ih]
    · rw [if_neg h]
      cases hs : pySplit sep rest with
      | nil => exact absurd hs (pySplit_ne_nil sep rest)
      | cons h2 t2 =>
        rw [hs] at ih
        cases t2 with
        | nil =>
          simp only [pyJoin] at ih ⊢
          simp [ih]
        | cons h3 t3 =>
          simp only [pyJoin] at ih ⊢
          simp only [List.cons_append, ih]

/-- Replacing the path of a path-replaced URL is a single replacement. -/
theorem pyurl_path_collapse (p : PyUrl) (x y : List Char) :
    ({ { p with path := x } with path := y } : PyUrl) = { p with path := y } := rfl

/-- Behaviour of the countdown loop of the path-tail stage when every test
above index `r` is accepted and the test at index `r` is rejected: entered
at index `i ≥ r` with the accepted path `parts[:i+1]` in hand, the loop
ends holding exactly `parts[:r+1]`. -/
theorem pathTailGo_spec (fetch7 : String → Option (Nat × String × String)) (url : String)
    (parts : List (List Char)) (p : PyUrl) (r : Nat) (hr : 1 ≤ r)
    (hacc : ∀ i, i < parts.length → r < i →
      pages_equivalent7 fetch7 url (urlunparse { p with path := pyJoin '/' (parts.take i) }) = true)
    (hrej : pages_equivalent7 fetch7 url
      (urlunparse { p with path := pyJoin '/' (parts.take r) }) = false) :
    ∀ i, r ≤ i → i < parts.length →
      ∀ p' : PyUrl, p' = { p with path := pyJoin '/' (parts.take (i + 1)) } →
      pathTailGo fetch7 url parts p' i =
        { p with path := pyJoin '/' (parts.take (r + 1)) } := by
  intro i hri
  induction i, hri using Nat.le_induction with
  | base =>
    intro _ p' hp'
    subst hp'
    obtain ⟨m, rfl⟩ : ∃ m, r = m + 1 := ⟨r - 1, by omega⟩
    rw [pathTailGo]
    simp only [pyurl_path_collapse]
    rw [if_neg (by simp [hrej])]
  | succ i hri ih =>
    intro hlen p' hp'
    subst hp'
    rw [pathTailGo]
    simp only [pyurl_path_collapse]
    rw [if_pos (by simp [hacc (i + 1) hlen (by omega)])]
    exact ih (by omega) _ (pyurl_path_collapse p _ _)

/-- C5: the path-tail stage of `url_cannonise7_comparing_triming_html3.py`
(identical in `url_cannonise8_comparing_tags_html.py`) strips path segments
one at a time from the end, testing each successively shorter candidate
(`parts[:i]` for `i = n-1, n-2, ...`) against the frozen original URL,
accepting while the oracle confirms equivalence and permanently stopping at
the first rejection: if every candidate above index `r` is accepted and the
candidate `parts[:r]` is rejected, the resulting path is exactly
`parts[:r+1]`, so no segment closer to the root than the first rejected
candidate is ever removed. -/
theorem C5_path_tail_stops_at_first_rejection
    (fetch7 : String → Option (Nat × String × String)) (url : String) (p : PyUrl) (r : Nat)
    (hr : 1 ≤ r) (hrn : r < (pySplit '/' p.path).length)
    (hacc : ∀ i, i < (pySplit '/' p.path).length → r < i →
      pages_equivalent7 fetch7 url
        (urlunparse { p with path := pyJoin '/' ((pySplit '/' p.path).take i) }) = true)
    (hrej : pages_equivalent7 fetch7 url
      (urlunparse { p with path := pyJoin '/' ((pySplit '/' p.path).take r) }) = false) :
    (pathTailStage fetch7 url p).path =
      pyJoin '/' ((pySplit '/' p.path).take (r + 1)) := by
  have hlen : 0 < (pySplit '/' p.path).length :=
    List.length_pos.mpr (pySplit_ne_nil '/' p.path)
  have hp : p = { p with path := pyJoin '/' ((pySplit '/' p.path).take
      ((pySplit '/' p.path).length - 1 + 1)) } := by
    have h1 : (pySplit '/' p.path).length - 1 + 1 = (pySplit '/' p.path).length := by omega
    rw [h1, List.take_length, pyJoin_pySplit]
  show (pathTailGo fetch7 url (pySplit '/' p.path) p ((pySplit '/' p.path).length - 1)).path = _
  rw [pathTailGo_spec fetch7 url (pySplit '/' p.path) p r hr hacc hrej
    ((pySplit '/' p.path).length - 1) (by omega) (by omega) p hp]

/-- Concrete oracle for the C5 witness: the original three-segment URL and
the two-segment candidate fetch the same page; everything else differs. -/
def fetch7W : String → Option (Nat × String × String) :=
  fun s => if s = "https://e.com/a/b" ∨ s = "https://e.com/a/b/c" then some (200, "T", "B")
    else some (404, "", "")

/-- Witness for C5: on `https://e.com/a/b/c` with the concrete oracle, the
candidate `/a/b` is accepted and `/a` is rejected (rejection index `r = 2`),
so the stage returns path `/a/b`. -/
theorem C5_witness :
    (pathTailStage fetch7W "https://e.com/a/b/c" (urlparse "https://e.com/a/b/c")).path =
      "/a/b".data := by
  have h := C5_path_tail_stops_at_first_rejection fetch7W "https://e.com/a/b/c"
    (urlparse "https://e.com/a/b/c") 2 (by decide) (by decide) (by decide) (by decide)
  rw [h]
  decide

/-- The concrete query loop coincides with its dictionary-level abstraction
in which the oracle is called on the candidate dictionary rather than the
rendered candidate URL. -/
theorem queryLoop3_abs_spec (same : String → Bool) (p : PyUrl) :
    ∀ (order : List (List Char)) (q : QDict),
      queryLoop3 same p order q =
        queryLoop3Abs (fun q' => same (urlunparse { p with query := urlencode q' })) order q := by
  intro order
  induction order with
  | nil => intro q; rfl
  | cons key keys ih =>
    intro q
    rw [queryLoop3, queryLoop3Abs]
    by_cases hc : qContains q key = true
    · rw [if_pos hc, if_pos hc]
      by_cases ho : same (urlunparse { p with query := urlencode (qErase q key) }) = true
      · rw [if_pos ho, if_pos ho, ih]
      · rw [if_neg (by simpa using ho), if_neg (by simpa using ho), ih]
    · rw [if_neg (by simpa using hc), if_neg (by simpa using hc), ih]

/-- Keys of the original dictionary that were removed in a candidate
dictionary, the quantity the C3 oracle hypothesis is phrased over. -/
def removedKeys (q0 qc : QDict) : List (List Char) :=
  (q0.map Prod.fst).filter (fun k => !qContains qc k)

/-- Membership after a Python `del`. -/
theorem qContains_qErase (q : QDict) (k0 k : List Char) :
    qContains (qErase q k0) k = (qContains q k && !(k = k0 : Bool)) := by
  induction q with
  | nil => simp [qContains, qErase]
  | cons kv rest ih =>
    unfold qErase at ih ⊢
    by_cases h : kv.1 = k0
    · rw [List.filter_cons]
      simp only [h]
      by_cases hk : k = k0
      · subst hk
        simp [qContains, ih, h]
      · simp only [decide_eq_true_eq]
        rw [if_neg (by simp)]
        rw [ih]
        simp only [qContains, List.any_cons]
        by_cases hkv : kv.1 = k
        · exact absurd (hkv.symm.trans h) hk
        · simp [hkv, hk]
    · rw [List.filter_cons, if_pos (by simp [h])]
      simp only [qContains, List.any_cons] at ih ⊢
      rw [ih]
      by_cases hkv : kv.1 = k
      · subst hkv
        by_cases hk : kv.1 = k0
        · exact absurd hk h
        · simp [hk]
      · simp [hkv]

/-- Membership after the Python restore `dict[key] = value`. -/
theorem qContains_qAppend (q : QDict) (k0 k : List Char) (v : List (List Char)) :
    qContains (qAppend q k0 v) k = (qContains q k || (k = k0 : Bool)) := by
  unfold qAppend qContains
  rw [List.any_append]
  simp [eq_comm]

/-- Key membership as membership of the key list. -/
theorem qContains_iff_mem_keys (q : QDict) (k : List Char) :
    qContains q k = true ↔ k ∈ q.map Prod.fst := by
  unfold qContains
  rw [List.any_eq_true]
  constructor
  · rintro ⟨kv, hkv, he⟩
    simp only [decide_eq_true_eq] at he
    exact he ▸ List.mem_map_of_mem Prod.fst hkv
  · intro hm
    obtain ⟨kv, hkv, he⟩ := List.mem_map.mp hm
    exact ⟨kv, hkv, by simp [he]⟩

/-- Membership of the removed-key list. -/
theorem mem_removedKeys (q0 qc : QDict) (k : List Char) :
    k ∈ removedKeys q0 qc ↔ (qContains q0 k = true ∧ qContains qc k = false) := by
  unfold removedKeys
  rw [List.mem_filter]
  rw [← qContains_iff_mem_keys]
  simp

/-- Main induction for the C3 analysis: running the abstract query loop
from a state `q` that is `q0` with a mask `M` of (individually droppable)
keys removed, against an oracle that accepts a candidate exactly when every
removed key is individually droppable per `f`, removes exactly the
droppable keys among those evaluated. -/
theorem queryLoop3Abs_mask (f : List Char → Bool) (q0 : QDict) (ok : QDict → Bool)
    (hok : ∀ qc, ok qc = (removedKeys q0 qc).all f) :
    ∀ (order : List (List Char)) (q : QDict) (M : List Char → Bool),
      (∀ k, qContains q k = (qContains q0 k && !M k)) →
      (∀ k, M k = true → f k = true) →
      ∀ k, qContains (queryLoop3Abs ok order q) k =
        (qContains q0 k && !(M k || (decide (k ∈ order) && f k))) := by
  intro order
  induction order with
  | nil =>
    intro q M hq hM k
    simp only [queryLoop3Abs, List.not_mem_nil, decide_False, Bool.false_and, Bool.or_false]
    exact hq k
  | cons key keys ih =>
    intro q M hq hM k
    rw [queryLoop3Abs]
    by_cases hc : qContains q key = true
    · rw [if_pos hc]
      have hq0key : qContains q0 key = true ∧ M key = false := by
        have h := hq key
        rw [hc] at h
        constructor
        · cases h0 : qContains q0 key
          · rw [h0] at h; simp at h
          · rfl
        · cases hm : M key
          · rfl
          · rw [hm] at h; simp at h
      have hokv : ok (qErase q key) = f key := by
        rw [hok]
        by_cases hf : f key = true
        · rw [hf, List.all_eq_true]
          intro x hx
          rw [mem_removedKeys] at hx
          have h2 := hx.2
          rw [qContains_qErase] at h2
          by_cases hxk : x = key
          · rw [hxk]; exact hf
          · have hqx : qContains q x = false := by
              rw [decide_eq_false hxk] at h2
              simpa using h2
            have h3 := hq x
            rw [hqx, hx.1] at h3
            have hMx : M x = true := by
              cases hm : M x
              · rw [hm] at h3; simp at h3
              · rfl
            exact hM x hMx
        · have hfk : f key = false := by
            cases hf2 : f key
            · rfl
            · exact absurd hf2 hf
          rw [hfk]
          have : ¬ ((removedKeys q0 (qErase q key)).all f = true) := by
            rw [List.all_eq_true]
            intro hall
            have hmem : key ∈ removedKeys q0 (qErase q key) := by
              rw [mem_removedKeys]
              refine ⟨hq0key.1, ?_⟩
              rw [qContains_qErase]
              simp
            have := hall key hmem
            rw [hfk] at this
            exact Bool.false_ne_true this
          simpa using this
      by_cases ho : ok (qErase q key) = true
      · rw [if_pos ho]
        have hfkey : f key = true := by rw [← hokv]; exact ho
        have hrec := ih (qErase q key) (fun x => M x || decide (x = key))
          (fun x => by
            rw [qContains_qErase, hq x, Bool.not_or, ← Bool.and_assoc])
          (fun x hx => by
            rcases Bool.or_eq_true_iff.mp hx with h1 | h1
            · exact hM x h1
            · rw [decide_eq_true_eq] at h1
              rw [h1]; exact hfkey)
          k
        rw [hrec]
        by_cases hkk : k = key
        · subst hkk
          simp [hfkey, hq0key.2]
        · simp [hkk, List.mem_cons]
      · rw [if_neg ho]
        have hfkey : f key = false := by
          rw [← hokv]
          cases hov : ok (qErase q key)
          · rfl
          · exact absurd hov ho
        have hrec := ih (qAppend (qErase q key) key (qGet q key)) M
          (fun x => by
            rw [qContains_qAppend, qContains_qErase, hq x]
            by_cases hxk : x = key
            · subst hxk
              rw [hq0key.1, hq0key.2]
              simp
            · simp [hxk])
          hM k
        rw [hrec]
        by_cases hkk : k = key
        · subst hkk
          simp [hfkey, List.mem_cons]
        · simp [hkk, List.mem_cons]
    · rw [if_neg hc]
      have hrec := ih q M hq hM k
      rw [hrec]
      by_cases hkk : k = key
      · subst hkk
        have h := hq k
        have hcf : qContains q k = false := by
          cases hcv : qContains q k
          · rfl
          · exact absurd hcv hc
        rw [hcf] at h
        cases h0 : qContains q0 k
        · simp
        · rw [h0] at h
          have hMk : M k = true := by
            cases hm : M k
            · rw [hm] at h; simp at h
            · rfl
          simp [hMk]
      · simp [hkk, List.mem_cons]

/-- C3, amended: in `make_url_canonical` of
`url_cannonise3_comparing_trimming.py`, each candidate compounds all
previously accepted removals, so the accepted removal set is in general
order-dependent (see the counterexample); it is order-independent exactly
in the benign situation the spec describes, namely when each parameter is
individually droppable or not, independent of the others: if the oracle
accepts a candidate precisely when every removed key is droppable per a
fixed per-key predicate `f`, then a key ends up removed exactly when it was
evaluated and is droppable — a characterisation depending on the
evaluation order only through membership, hence invariant under
permutation. -/
theorem C3_removal_set_with_independent_oracle
    (f : List Char → Bool) (q0 : QDict) (ok : QDict → Bool)
    (hok : ∀ qc, ok qc = (removedKeys q0 qc).all f)
    (order : List (List Char)) (k : List Char) :
    qContains (queryLoop3Abs ok order q0) k =
      (qContains q0 k && !(decide (k ∈ order) && f k)) := by
  have h := queryLoop3Abs_mask f q0 ok hok order q0 (fun _ => false)
    (fun k => by simp) (fun k h => by simp at h) k
  simpa using h

/-- The individually-droppable predicate of the C3 witness: only key `a`
is droppable. -/
def fC3 : List Char → Bool := fun k => k = "a".data

/-- The dictionary of the C3 witness. -/
def q0C3 : QDict := [("a".data, ["1".data]), ("b".data, ["1".data])]

/-- The independent oracle of the C3 witness. -/
def okC3 : QDict → Bool := fun qc => (removedKeys q0C3 qc).all fC3

/-- Witness for C3: with the independent oracle, key `a` is removed even
when evaluated last. -/
theorem C3_witness :
    qContains (queryLoop3Abs okC3 ["b".data, "a".data] q0C3) "a".data = false := by
  have h := C3_removal_set_with_independent_oracle fC3 q0C3 okC3 (fun _ => rfl)
    ["b".data, "a".data] "a".data
  rw [h]
  decide

/-- The candidate-URL oracle of the C3 counterexample: removing either
single key keeps the destination, removing both changes it. -/
def sameC3 : String → Bool :=
  fun s => s == "https://e.com/p?b=1" || s == "https://e.com/p?a=1"

/-- The parsed URL of the C3 counterexample. -/
def pC3 : PyUrl := ⟨"https".data, "e.com".data, "/p".data, "a=1&b=1".data, []⟩

/-- C3, counterexample: the query-removal loop of `make_url_canonical`
tests each key on a candidate that compounds the previously accepted
removals, so evaluating the keys in the order `a, b` removes `a` (and then
cannot also drop `b`), while the order `b, a` removes `b` and keeps `a`:
the final accepted removal set depends on the evaluation order. -/
theorem C3_counterexample :
    qContains (queryLoop3 sameC3 pC3 ["a".data, "b".data] (parse_qs pC3.query)) "a".data
        = false ∧
    qContains (queryLoop3 sameC3 pC3 ["b".data, "a".data] (parse_qs pC3.query)) "a".data
        = true := by
  decide

/-- A successful first-occurrence split decomposes the list, and the prefix
avoids the separator. -/
theorem splitFirst_eq_some (c : Char) :
    ∀ l a b, splitFirst c l = some (a, b) → l = a ++ c :: b ∧ c ∉ a := by
  intro l
  induction l with
  | nil => intro a b h; simp [splitFirst] at h
  | cons x xs ih =>
    intro a b h
    unfold splitFirst at h
    by_cases hx : x = c
    · rw [if_pos hx] at h
      cases h
      subst hx
      simp
    · rw [if_neg hx] at h
      cases hs : splitFirst c xs with
      | none => rw [hs] at h; cases h
      | some ab =>
        rw [hs] at h
        cases h
        obtain ⟨h1, h2⟩ := ih ab.1 ab.2 (by rw [hs])
        refine ⟨by rw [List.cons_append, ← h1], ?_⟩
        intro hm
        rcases List.mem_cons.mp hm with h3 | h3
        · exact hx h3.symm
        · exact h2 h3

/-- First-occurrence split of an explicit decomposition whose prefix avoids
the separator. -/
theorem splitFirst_append (c : Char) :
    ∀ a b, c ∉ a → splitFirst c (a ++ c :: b) = some (a, b) := by
  intro a
  induction a with
  | nil => intro b _; simp [splitFirst]
  | cons x xs ih =>
    intro b hc
    have hx : ¬ x = c := fun h => hc (h ▸ List.mem_cons_self x xs)
    rw [List.cons_append]
    unfold splitFirst
    rw [if_neg hx, ih b (fun h => hc (List.mem_cons_of_mem x h))]

/-- The prefix part of a first-occurrence split is empty or starts where
the whole list starts. -/
theorem splitFirst_fst_head (c : Char) (l a b : List Char)
    (h : splitFirst c l = some (a, b)) : a = [] ∨ a.headD ' ' = l.headD ' ' := by
  obtain ⟨hdec, _⟩ := splitFirst_eq_some c l a b h
  cases a with
  | nil => exact Or.inl rfl
  | cons x xs =>
    right
    rw [hdec]
    rfl

/-- Members of both parts of a first-occurrence split come from the input. -/
theorem splitFirst_parts_subset (c : Char) (l a b : List Char)
    (h : splitFirst c l = some (a, b)) :
    (∀ x ∈ a, x ∈ l) ∧ (∀ x ∈ b, x ∈ l) := by
  obtain ⟨hdec, _⟩ := splitFirst_eq_some c l a b h
  subst hdec
  constructor
  · intro x hx
    exact List.mem_append.mpr (Or.inl hx)
  · intro x hx
    exact List.mem_append.mpr (Or.inr (List.mem_cons_of_mem c hx))

/-- Hexadecimal digits emitted by the encoder are always safe. -/
theorem hexDigitU_safe (n : Nat) : isAlwaysSafe (hexDigitU n) = true := by
  unfold hexDigitU
  by_cases h : n < 16
  · interval_cases n <;> decide
  · rw [List.getD_eq_default]
    · decide
    · simpa using Nat.le_of_not_lt h

/-- Characters of a quoted string: always safe, or `+`, or `%`. -/
theorem quote_plus_chars (l : List Char) :
    ∀ c ∈ quote_plus l, isAlwaysSafe c = true ∨ c = '+' ∨ c = '%' := by
  intro c hc
  unfold quote_plus at hc
  obtain ⟨x, _, hcx⟩ := List.mem_flatMap.mp hc
  unfold quoteChar at hcx
  split at hcx
  · next hsafe =>
    rcases List.mem_cons.mp hcx with h | h
    · subst h; exact Or.inl hsafe
    · cases h
  · split at hcx
    · rcases List.mem_cons.mp hcx with h | h
      · subst h; exact Or.inr (Or.inl rfl)
      · cases h
    · obtain ⟨b, _, hcb⟩ := List.mem_flatMap.mp hcx
      unfold pctEncode at hcb
      rcases List.mem_cons.mp hcb with h | h
      · subst h; exact Or.inr (Or.inr rfl)
      · rcases List.mem_cons.mp h with h | h
        · subst h; exact Or.inl (hexDigitU_safe _)
        · rcases List.mem_cons.mp h with h | h
          · subst h; exact Or.inl (hexDigitU_safe _)
          · cases h

/-- A generic character that is neither `+` nor `%` passes through one step
of `unquote_plus` unchanged. -/
theorem unquote_plus_cons (c : Char) (r : List Char) (h1 : c ≠ '+') (h2 : c ≠ '%') :
    unquote_plus (c :: r) = c :: unquote_plus r := by
  rw [unquote_plus.eq_def]
  split
  · next rest heq =>
    rw [List.cons.injEq] at heq
    exact absurd heq.1 h1
  · next a b rest heq =>
    rw [List.cons.injEq] at heq
    exact absurd heq.1 h2
  · next c2 rest heq =>
    rw [List.cons.injEq] at heq
    rw [heq.1, heq.2]
  · next heq =>
    cases heq

/-- The encoder's hexadecimal digits are digits the decoder accepts. -/
theorem isHexDigit_hexDigitU (n : Nat) (h : n < 16) : isHexDigit (hexDigitU n) = true := by
  interval_cases n <;> decide

/-- Decoding inverts the encoder's hexadecimal digits. -/
theorem hexVal_hexDigitU (n : Nat) (h : n < 16) : hexVal (hexDigitU n) = n := by
  interval_cases n <;> decide

/-- One valid percent escape decodes to the byte's character. -/
theorem unquote_plus_pct (d1 d2 : Char) (r : List Char)
    (hh : (isHexDigit d1 && isHexDigit d2) = true) :
    unquote_plus ('%' :: d1 :: d2 :: r) =
      Char.ofNat (hexVal d1 * 16 + hexVal d2) :: unquote_plus r := by
  show (if (isHexDigit d1 && isHexDigit d2) = true then
      Char.ofNat (hexVal d1 * 16 + hexVal d2) :: unquote_plus r
    else '%' :: unquote_plus (d1 :: d2 :: r)) =
      Char.ofNat (hexVal d1 * 16 + hexVal d2) :: unquote_plus r
  rw [if_pos hh]

/-- Decoding a quoted ASCII character in front of any tail restores the
character. -/
theorem unquote_quote_char (c : Char) (r : List Char) (h : c.toNat < 128) :
    unquote_plus (quoteChar c ++ r) = c :: unquote_plus r := by
  unfold quoteChar
  split
  · next hsafe =>
    have h1 : c ≠ '+' := by intro he; rw [he] at hsafe; cases hsafe
    have h2 : c ≠ '%' := by intro he; rw [he] at hsafe; cases hsafe
    exact unquote_plus_cons c r h1 h2
  · split
    · next hsp =>
      rw [hsp]
      rfl
    · next hne hsp =>
      have hb : utf8Bytes c = [c.toNat] := by
        unfold utf8Bytes
        rw [if_pos (by omega)]
      rw [hb]
      simp only [List.flatMap_cons, List.flatMap_nil, List.append_nil, pctEncode,
        List.cons_append, List.nil_append]
      have hd1 : c.toNat / 16 < 16 := by omega
      have hd2 : c.toNat % 16 < 16 := by omega
      rw [unquote_plus_pct _ _ r
        (by rw [isHexDigit_hexDigitU _ hd1, isHexDigit_hexDigitU _ hd2]; rfl)]
      rw [hexVal_hexDigitU _ hd1, hexVal_hexDigitU _ hd2]
      have hn : c.toNat / 16 * 16 + c.toNat % 16 = c.toNat := by omega
      rw [hn, Char.ofNat_toNat]

/-- Decoding inverts quoting on ASCII strings. -/
theorem unquote_quote (x : List Char) (hA : ∀ c ∈ x, c.toNat < 128) :
    unquote_plus (quote_plus x) = x := by
  induction x with
  | nil => rfl
  | cons c rest ih =>
    show unquote_plus (quoteChar c ++ quote_plus rest) = c :: rest
    rw [unquote_quote_char c _ (hA c (List.mem_cons_self c rest))]
    rw [ih (fun d hd => hA d (List.mem_cons_of_mem c hd))]

/-- An always-safe character is not a query metacharacter. -/
theorem isAlwaysSafe_ne_meta (c : Char) (h : isAlwaysSafe c = true) :
    c ≠ '&' ∧ c ≠ '=' := by
  constructor
  · intro he; rw [he] at h; cases h
  · intro he; rw [he] at h; cases h

/-- Quoted strings contain no raw `&`. -/
theorem quote_plus_no_amp (l : List Char) : '&' ∉ quote_plus l := by
  intro hm
  rcases quote_plus_chars l '&' hm with h | h | h
  · exact absurd h (by decide)
  · cases h
  · cases h

/-- Quoted strings contain no raw `=`. -/
theorem quote_plus_no_eq (l : List Char) : '=' ∉ quote_plus l := by
  intro hm
  rcases quote_plus_chars l '=' hm with h | h | h
  · exact absurd h (by decide)
  · cases h
  · cases h

/-- Splitting a separator-free string returns it whole. -/
theorem pySplit_no_sep (sep : Char) :
    ∀ (l : List Char), sep ∉ l → pySplit sep l = [l] := by
  intro l
  induction l with
  | nil => intro h; rfl
  | cons c rest ih =>
    intro h
    have hc : c ≠ sep := by
      intro he
      exact h (by rw [← he]; exact List.mem_cons_self c rest)
    have hr : sep ∉ rest := fun hm => h (List.mem_cons_of_mem c hm)
    simp only [pySplit]
    rw [if_neg hc, ih hr]

/-- Splitting past a separator-free prefix peels it off. -/
theorem pySplit_sep_append (sep : Char) :
    ∀ (a rest : List Char), sep ∉ a →
      pySplit sep (a ++ sep :: rest) = a :: pySplit sep rest := by
  intro a
  induction a with
  | nil =>
    intro rest h
    show pySplit sep (sep :: rest) = [] :: pySplit sep rest
    simp [pySplit]
  | cons c t ih =>
    intro rest h
    have hc : c ≠ sep := by
      intro he
      exact h (by rw [← he]; exact List.mem_cons_self c t)
    have ht : sep ∉ t := fun hm => h (List.mem_cons_of_mem c hm)
    show pySplit sep (c :: (t ++ sep :: rest)) = (c :: t) :: pySplit sep rest
    simp only [pySplit]
    rw [if_neg hc, ih rest ht]

/-- Splitting inverts joining for a nonempty list of separator-free
pieces. -/
theorem pySplit_pyJoin (sep : Char) :
    ∀ (ps : List (List Char)), ps ≠ [] → (∀ p ∈ ps, sep ∉ p) →
      pySplit sep (pyJoin sep ps) = ps := by
  intro ps
  induction ps with
  | nil => intro h _; exact absurd rfl h
  | cons x t ih =>
    intro _ hfree
    cases t with
    | nil =>
      show pySplit sep (pyJoin sep [x]) = [x]
      rw [show pyJoin sep [x] = x from rfl]
      exact pySplit_no_sep sep x (hfree x (List.mem_cons_self x []))
    | cons y t2 =>
      rw [show pyJoin sep (x :: y :: t2) = x ++ sep :: pyJoin sep (y :: t2) from rfl]
      rw [pySplit_sep_append sep x _ (hfree x (List.mem_cons_self x _))]
      rw [ih (by simp) (fun p hp => hfree p (List.mem_cons_of_mem x hp))]

/-- Characters of the pieces of a split come from the split string. -/
theorem pySplit_mem_subset (sep : Char) :
    ∀ (l : List Char), ∀ p ∈ pySplit sep l, ∀ c ∈ p, c ∈ l := by
  intro l
  induction l with
  | nil =>
    intro p hp c hc
    have hp2 : p = [] := by
      rcases List.mem_singleton.mp hp with h
      exact h
    rw [hp2] at hc
    cases hc
  | cons x rest ih =>
    intro p hp c hc
    simp only [pySplit] at hp
    by_cases hx : x = sep
    · rw [if_pos hx] at hp
      rcases List.mem_cons.mp hp with h | h
      · rw [h] at hc; cases hc
      · exact List.mem_cons_of_mem x (ih p h c hc)
    · rw [if_neg hx] at hp
      cases hps : pySplit sep rest with
      | nil => exact absurd hps (pySplit_ne_nil sep rest)
      | cons h0 t0 =>
        rw [hps] at hp
        rcases List.mem_cons.mp hp with h | h
        · rw [h] at hc
          rcases List.mem_cons.mp hc with h2 | h2
          · rw [h2]; exact List.mem_cons_self x rest
          · refine List.mem_cons_of_mem x (ih h0 ?_ c h2)
            rw [hps]
            exact List.mem_cons_self h0 t0
        · refine List.mem_cons_of_mem x (ih p ?_ c hc)
          rw [hps]
          exact List.mem_cons_of_mem h0 h

/-- On a percent-free string the decoder only turns `+` into a space:
every output character is a space or an input character. -/
theorem unquote_plus_chars (l : List Char) (hp : '%' ∉ l) :
    ∀ c ∈ unquote_plus l, c = ' ' ∨ c ∈ l := by
  induction l with
  | nil => intro c hc; cases hc
  | cons x rest ih =>
    intro c hc
    have hx : x ≠ '%' := by
      intro he
      exact hp (by rw [← he]; exact List.mem_cons_self x rest)
    have hrest : '%' ∉ rest := fun hm => hp (List.mem_cons_of_mem x hm)
    by_cases hplus : x = '+'
    · rw [hplus] at hc
      rw [show unquote_plus ('+' :: rest) = ' ' :: unquote_plus rest from rfl] at hc
      rcases List.mem_cons.mp hc with h | h
      · exact Or.inl h
      · rcases ih hrest c h with h2 | h2
        · exact Or.inl h2
        · exact Or.inr (List.mem_cons_of_mem x h2)
    · rw [unquote_plus_cons x rest hplus hx] at hc
      rcases List.mem_cons.mp hc with h | h
      · right; rw [h]; exact List.mem_cons_self x rest
      · rcases ih hrest c h with h2 | h2
        · exact Or.inl h2
        · exact Or.inr (List.mem_cons_of_mem x h2)

/-- The per-field step of `parse_qsl`, named for reuse. -/
def qslField (field : List Char) : List (List Char × List Char) :=
  if field = [] then []
  else
    match splitFirst '=' field with
    | some (n, v) => [(unquote_plus n, unquote_plus v)]
    | none => [(unquote_plus field, [])]

theorem parse_qsl_eq (qs : List Char) :
    parse_qsl qs = (pySplit '&' qs).flatMap qslField := rfl

/-- The pieces `urlencode` joins with `&`, named for reuse. -/
def encPieces (d : QDict) : List (List Char) :=
  d.flatMap (fun kv => kv.2.map (fun v => quote_plus kv.1 ++ '=' :: quote_plus v))

theorem urlencode_eq (d : QDict) : urlencode d = pyJoin '&' (encPieces d) := rfl

/-- The flattening of a grouped query dictionary back into an ordered pair
list: keys in dictionary order, values of each key consecutive. -/
def qFlatten (d : QDict) : List (List Char × List Char) :=
  d.flatMap (fun kv => kv.2.map (fun v => (kv.1, v)))

/-- All keys and values of a dictionary are ASCII. -/
def qAscii (d : QDict) : Prop :=
  ∀ kv ∈ d, (∀ c ∈ kv.1, c.toNat < 128) ∧ ∀ v ∈ kv.2, ∀ c ∈ v, c.toNat < 128

/-- Parsing one encoded `key=value` piece recovers the ASCII pair. -/
theorem qslField_piece (k v : List Char) (hk : ∀ c ∈ k, c.toNat < 128)
    (hv : ∀ c ∈ v, c.toNat < 128) :
    qslField (quote_plus k ++ '=' :: quote_plus v) = [(k, v)] := by
  unfold qslField
  rw [if_neg (by simp)]
  rw [splitFirst_append '=' _ _ (quote_plus_no_eq k)]
  show [(unquote_plus (quote_plus k), unquote_plus (quote_plus v))] = [(k, v)]
  rw [unquote_quote k hk, unquote_quote v hv]

theorem encPieces_ne_nil (d : QDict) (hd : d ≠ []) (hne : ∀ kv ∈ d, kv.2 ≠ []) :
    encPieces d ≠ [] := by
  cases d with
  | nil => exact absurd rfl hd
  | cons kv rest =>
    show kv.2.map _ ++ _ ≠ []
    intro he
    rcases List.append_eq_nil.mp he with ⟨h1, -⟩
    exact hne kv (List.mem_cons_self kv rest) (List.map_eq_nil.mp h1)

theorem encPieces_amp_free (d : QDict) : ∀ p ∈ encPieces d, '&' ∉ p := by
  intro p hp
  unfold encPieces at hp
  obtain ⟨kv, hkv, hp2⟩ := List.mem_flatMap.mp hp
  obtain ⟨v, hv, rfl⟩ := List.mem_map.mp hp2
  intro hm
  rcases List.mem_append.mp hm with h | h
  · exact quote_plus_no_amp _ h
  · rcases List.mem_cons.mp h with h | h
    · cases h
    · exact quote_plus_no_amp _ h

theorem encPieces_key (k : List Char) (vs : List (List Char))
    (hk : ∀ c ∈ k, c.toNat < 128) (hvs : ∀ v ∈ vs, ∀ c ∈ v, c.toNat < 128) :
    (vs.map (fun v => quote_plus k ++ '=' :: quote_plus v)).flatMap qslField =
      vs.map (fun v => (k, v)) := by
  induction vs with
  | nil => rfl
  | cons v t ih =>
    rw [List.map_cons, List.flatMap_cons]
    rw [qslField_piece k v hk (hvs v (List.mem_cons_self v t))]
    rw [ih (fun w hw => hvs w (List.mem_cons_of_mem v hw))]
    rfl

theorem encPieces_flatMap (d : QDict) (hA : qAscii d) :
    (encPieces d).flatMap qslField = qFlatten d := by
  induction d with
  | nil => rfl
  | cons kv rest ih =>
    have hk := (hA kv (List.mem_cons_self kv rest)).1
    have hvs := (hA kv (List.mem_cons_self kv rest)).2
    show ((kv.2.map fun v => quote_plus kv.1 ++ '=' :: quote_plus v) ++
      encPieces rest).flatMap qslField = qFlatten (kv :: rest)
    rw [List.flatMap_append]
    rw [ih (fun kv2 h2 => hA kv2 (List.mem_cons_of_mem kv h2))]
    rw [encPieces_key kv.1 kv.2 hk hvs]
    rfl

/-- Parsing the encoding of a well-formed ASCII dictionary yields exactly
its flattened pair list. -/
theorem parse_qsl_urlencode (d : QDict) (hA : qAscii d) (hd : ∀ kv ∈ d, kv.2 ≠ []) :
    parse_qsl (urlencode d) = qFlatten d := by
  by_cases hnil : d = []
  · rw [hnil]; rfl
  · rw [parse_qsl_eq, urlencode_eq]
    rw [pySplit_pyJoin '&' _ (encPieces_ne_nil d hnil hd) (encPieces_amp_free d)]
    exact encPieces_flatMap d hA

/-- The keys of a dictionary in insertion order. -/
def qKeys (d : QDict) : List (List Char) :=
  d.map (fun kv => kv.1)

/-- Adding under a key absent from a prefix leaves the prefix alone. -/
theorem qAdd_append (a b : QDict) (k : List Char) (v : List Char)
    (h : ∀ kv ∈ a, kv.1 ≠ k) : qAdd (a ++ b) k v = a ++ qAdd b k v := by
  unfold qAdd qContains
  rw [List.any_append]
  have ha : a.any (fun kv => decide (kv.1 = k)) = false := by
    rw [List.any_eq_false]
    intro kv hkv
    simpa using h kv hkv
  rw [ha, Bool.false_or]
  cases hb : b.any (fun kv => decide (kv.1 = k)) with
  | true =>
    rw [if_pos rfl, if_pos rfl, List.map_append]
    have hmap : a.map (fun kv => if kv.1 = k then (kv.1, kv.2 ++ [v]) else kv) = a := by
      have h2 : ∀ kv ∈ a, (if kv.1 = k then (kv.1, kv.2 ++ [v]) else kv) = id kv :=
        fun kv hkv => if_neg (h kv hkv)
      rw [List.map_congr_left h2, List.map_id]
    rw [hmap]
  | false =>
    rw [if_neg (by simp), if_neg (by simp), List.append_assoc]

/-- Folding pairs whose keys avoid a prefix dictionary builds past it. -/
theorem foldl_qAdd_append (l : List (List Char × List Char)) :
    ∀ (a b : QDict), (∀ pr ∈ l, ∀ kv ∈ a, kv.1 ≠ pr.1) →
      List.foldl (fun d kv => qAdd d kv.1 kv.2) (a ++ b) l =
        a ++ List.foldl (fun d kv => qAdd d kv.1 kv.2) b l := by
  induction l with
  | nil => intro a b _; rfl
  | cons p t ih =>
    intro a b h
    rw [List.foldl_cons, List.foldl_cons]
    rw [qAdd_append a b p.1 p.2 (fun kv hkv => h p (List.mem_cons_self p t) kv hkv)]
    exact ih a _ (fun pr hpr kv hkv => h pr (List.mem_cons_of_mem p hpr) kv hkv)

/-- Folding the values of a single key accumulates them in order. -/
theorem foldl_qAdd_same_key (k : List Char) (vs : List (List Char)) :
    ∀ (acc : List (List Char)),
      List.foldl (fun d kv => qAdd d kv.1 kv.2) [(k, acc)] (vs.map (fun v => (k, v))) =
        [(k, acc ++ vs)] := by
  induction vs with
  | nil => intro acc; simp
  | cons v t ih =>
    intro acc
    rw [List.map_cons, List.foldl_cons]
    have hstep : qAdd [(k, acc)] k v = [(k, acc ++ [v])] := by
      unfold qAdd qContains
      simp
    rw [hstep, ih (acc ++ [v])]
    simp

/-- A key of a flattened dictionary is a key of the dictionary. -/
theorem mem_qFlatten_keys (d : QDict) (pr : List Char × List Char)
    (h : pr ∈ qFlatten d) : pr.1 ∈ qKeys d := by
  unfold qFlatten at h
  obtain ⟨kv, hkv, h2⟩ := List.mem_flatMap.mp h
  obtain ⟨v, hv, rfl⟩ := List.mem_map.mp h2
  exact List.mem_map.mpr ⟨kv, hkv, rfl⟩

/-- Grouping the flattening of a dictionary with distinct keys and
nonempty value lists restores the dictionary. -/
theorem regroup_qFlatten (d : QDict) (hnd : (qKeys d).Nodup)
    (hne : ∀ kv ∈ d, kv.2 ≠ []) :
    List.foldl (fun d kv => qAdd d kv.1 kv.2) [] (qFlatten d) = d := by
  induction d with
  | nil => rfl
  | cons kv rest ih =>
    obtain ⟨k, vs⟩ := kv
    have hkeys : qKeys ((k, vs) :: rest) = k :: qKeys rest := rfl
    rw [hkeys, List.nodup_cons] at hnd
    rw [show qFlatten ((k, vs) :: rest) =
      vs.map (fun v => (k, v)) ++ qFlatten rest from rfl]
    rw [List.foldl_append]
    have hvne := hne (k, vs) (List.mem_cons_self _ _)
    cases vs with
    | nil => exact absurd rfl hvne
    | cons v0 vt =>
      rw [List.map_cons, List.foldl_cons]
      have h0 : qAdd [] k v0 = [(k, [v0])] := rfl
      rw [h0, foldl_qAdd_same_key k vt [v0]]
      have hk : ∀ pr ∈ qFlatten rest, ∀ kv2 ∈ [(k, [v0] ++ vt)], kv2.1 ≠ pr.1 := by
        intro pr hpr kv2 hkv2
        rcases List.mem_singleton.mp hkv2 with rfl
        show k ≠ pr.1
        intro he
        exact hnd.1 (he ▸ mem_qFlatten_keys rest pr hpr)
      rw [show ([(k, [v0] ++ vt)] : QDict) = [(k, [v0] ++ vt)] ++ ([] : QDict) from
        (List.append_nil _).symm]
      rw [foldl_qAdd_append (qFlatten rest) [(k, [v0] ++ vt)] [] hk]
      rw [ih hnd.2 (fun kv2 h2 => hne kv2 (List.mem_cons_of_mem _ h2))]
      rfl

/-- Well-formedness `parse_qs` guarantees: distinct keys, nonempty value
lists. -/
def QWF (d : QDict) : Prop :=
  (qKeys d).Nodup ∧ ∀ kv ∈ d, kv.2 ≠ []

theorem QWF_qAdd (d : QDict) (k v : List Char) (h : QWF d) : QWF (qAdd d k v) := by
  obtain ⟨hnd, hne⟩ := h
  unfold qAdd
  split
  · next hc =>
    constructor
    · have hkeys : qKeys (d.map (fun kv => if kv.1 = k then (kv.1, kv.2 ++ [v]) else kv)) =
          qKeys d := by
        unfold qKeys
        rw [List.map_map]
        apply List.map_congr_left
        intro kv _
        by_cases hkv : kv.1 = k
        · simp [hkv]
        · simp [hkv]
      rw [hkeys]
      exact hnd
    · intro kv hkv
      obtain ⟨kv0, hkv0, rfl⟩ := List.mem_map.mp hkv
      by_cases hk0 : kv0.1 = k
      · rw [if_pos hk0]
        simp
      · rw [if_neg hk0]
        exact hne kv0 hkv0
  · next hc =>
    constructor
    · show (qKeys (d ++ [(k, [v])])).Nodup
      have hk : k ∉ qKeys d := by
        intro hm
        apply hc
        unfold qContains
        rw [List.any_eq_true]
        obtain ⟨kv, hkv, he⟩ := List.mem_map.mp hm
        exact ⟨kv, hkv, by rw [he]; simp⟩
      unfold qKeys
      rw [List.map_append]
      simp only [List.map_cons, List.map_nil]
      rw [List.nodup_append]
      refine ⟨hnd, List.nodup_singleton k, ?_⟩
      intro x hx
      simp only [List.mem_singleton]
      intro he
      exact hk (he ▸ hx)
    · intro kv hkv
      rcases List.mem_append.mp hkv with h | h
      · exact hne kv h
      · rcases List.mem_singleton.mp h with rfl
        simp

theorem QWF_foldl (l : List (List Char × List Char)) :
    ∀ d, QWF d → QWF (List.foldl (fun d kv => qAdd d kv.1 kv.2) d l) := by
  induction l with
  | nil => intro d h; exact h
  | cons p t ih =>
    intro d h
    rw [List.foldl_cons]
    exact ih _ (QWF_qAdd d p.1 p.2 h)

theorem QWF_parse_qs (q : List Char) : QWF (parse_qs q) :=
  QWF_foldl (parse_qsl q) [] ⟨List.nodup_nil, fun kv hkv => absurd hkv (List.not_mem_nil kv)⟩

/-- Every pair `parse_qsl` produces from an ASCII, percent-free query has
ASCII name and value. -/
theorem parse_qsl_ascii (q : List Char) (hA : ∀ c ∈ q, c.toNat < 128) (hP : '%' ∉ q) :
    ∀ pr ∈ parse_qsl q, (∀ c ∈ pr.1, c.toNat < 128) ∧ (∀ c ∈ pr.2, c.toNat < 128) := by
  intro pr hpr
  rw [parse_qsl_eq] at hpr
  obtain ⟨field, hf, hpr2⟩ := List.mem_flatMap.mp hpr
  have hfsub := pySplit_mem_subset '&' q field hf
  have hfA : ∀ c ∈ field, c.toNat < 128 := fun c hc => hA c (hfsub c hc)
  have hfP : '%' ∉ field := fun hm => hP (hfsub '%' hm)
  unfold qslField at hpr2
  split at hpr2
  · cases hpr2
  · cases hsp : splitFirst '=' field with
    | some nv =>
      obtain ⟨n, v⟩ := nv
      rw [hsp] at hpr2
      rcases List.mem_singleton.mp hpr2 with rfl
      have hsub := splitFirst_parts_subset '=' field n v hsp
      constructor
      · intro c hc
        rcases unquote_plus_chars n (fun hm => hfP (hsub.1 '%' hm)) c hc with h | h
        · rw [h]; decide
        · exact hfA c (hsub.1 c h)
      · intro c hc
        rcases unquote_plus_chars v (fun hm => hfP (hsub.2 '%' hm)) c hc with h | h
        · rw [h]; decide
        · exact hfA c (hsub.2 c h)
    | none =>
      rw [hsp] at hpr2
      rcases List.mem_singleton.mp hpr2 with rfl
      constructor
      · intro c hc
        rcases unquote_plus_chars field hfP c hc with h | h
        · rw [h]; decide
        · exact hfA c h
      · intro c hc
        cases hc

theorem qAscii_qAdd (d : QDict) (k v : List Char) (hd : qAscii d)
    (hk : ∀ c ∈ k, c.toNat < 128) (hv : ∀ c ∈ v, c.toNat < 128) :
    qAscii (qAdd d k v) := by
  unfold qAdd
  split
  · intro kv hkv
    obtain ⟨kv0, hkv0, rfl⟩ := List.mem_map.mp hkv
    by_cases hk0 : kv0.1 = k
    · rw [if_pos hk0]
      refine ⟨(hd kv0 hkv0).1, ?_⟩
      intro w hw
      rcases List.mem_append.mp hw with h | h
      · exact (hd kv0 hkv0).2 w h
      · rcases List.mem_singleton.mp h with rfl
        exact hv
    · rw [if_neg hk0]
      exact hd kv0 hkv0
  · intro kv hkv
    rcases List.mem_append.mp hkv with h | h
    · exact hd kv h
    · rcases List.mem_singleton.mp h with rfl
      refine ⟨hk, ?_⟩
      intro w hw
      rcases List.mem_singleton.mp hw with rfl
      exact hv

theorem qAscii_foldl (l : List (List Char × List Char))
    (hl : ∀ pr ∈ l, (∀ c ∈ pr.1, c.toNat < 128) ∧ (∀ c ∈ pr.2, c.toNat < 128)) :
    ∀ d, qAscii d → qAscii (List.foldl (fun d kv => qAdd d kv.1 kv.2) d l) := by
  induction l with
  | nil => intro d h; exact h
  | cons p t ih =>
    intro d h
    rw [List.foldl_cons]
    have hp := hl p (List.mem_cons_self p t)
    exact ih (fun pr hpr => hl pr (List.mem_cons_of_mem p hpr)) _
      (qAscii_qAdd d p.1 p.2 h hp.1 hp.2)

theorem qAscii_parse_qs (q : List Char) (hA : ∀ c ∈ q, c.toNat < 128) (hP : '%' ∉ q) :
    qAscii (parse_qs q) :=
  qAscii_foldl (parse_qsl q) (parse_qsl_ascii q hA hP) []
    (fun kv hkv => absurd hkv (List.not_mem_nil kv))

/-- C8 counterexample: the rendered query of the re-encoded grouped
dictionary of `a=1&b=2&a=3` parses back to a pair sequence in a different
interleaved order (`a=1&a=3&b=2`): the string round trip is not lossless
on the ordered pair sequence. -/
theorem C8_counterexample :
    parse_qsl (urlencode (parse_qs "a=1&b=2&a=3".data)) ≠
      parse_qsl "a=1&b=2&a=3".data := by
  decide

/-- C8 (amended): the round trip is lossless only up to `parse_qs`
grouping: for an ASCII, percent-free query string, re-parsing the
`urlencode` of its `parse_qs` dictionary restores that dictionary exactly
(keys in first-occurrence order, each with its duplicate values in order),
but the interleaved order of distinct keys in the original pair sequence
is lost, as the counterexample shows. -/
theorem C8_parse_qs_roundtrip (q : List Char) (hA : ∀ c ∈ q, c.toNat < 128)
    (hP : '%' ∉ q) :
    parse_qs (urlencode (parse_qs q)) = parse_qs q := by
  have hwf := QWF_parse_qs q
  have hAd := qAscii_parse_qs q hA hP
  rw [show parse_qs (urlencode (parse_qs q)) = List.foldl (fun d kv => qAdd d kv.1 kv.2)
    [] (parse_qsl (urlencode (parse_qs q))) from rfl]
  rw [parse_qsl_urlencode (parse_qs q) hAd hwf.2]
  exact regroup_qFlatten (parse_qs q) hwf.1 hwf.2

theorem C8_witness :
    (∀ c ∈ "a=1&b=2&a=3".data, c.toNat < 128) ∧ '%' ∉ "a=1&b=2&a=3".data ∧
    parse_qs (urlencode (parse_qs "a=1&b=2&a=3".data)) = parse_qs "a=1&b=2&a=3".data :=
  ⟨by decide, by decide,
   C8_parse_qs_roundtrip "a=1&b=2&a=3".data (by decide) (by decide)⟩

/-- The three unconditional reduction steps of `reduceParsed`, named. -/
def reduceFrag (p : PyUrl) : PyUrl :=
  if p.fragment ≠ [] then { p with fragment := [] } else p

theorem reduceFrag_path (p : PyUrl) : (reduceFrag p).path = p.path := by
  unfold reduceFrag
  split <;> rfl

